import Mathlib

/-!
Verification of the training-loop core of the person re-identification
trainer (python/train_reid.py): corpus-manifest parsing, balanced
sampling, difficulty-scheduled augmentation, loss-based hard-example
mining, the CMC/mAP retrieval evaluator, and the orchestrator's
best-accuracy bookkeeping.  Python floats are modelled by rationals,
Python 2 integer division by natural/floor division, and the stochastic
draws (numpy random calls) by explicitly passed oracle values.
-/

namespace TrainReid

/-! ### Hard-example miner: counts (SolverWrapper._init, lines 120-124)

The trainer computes
  virtual_batch_size = batch_size * iter_size
  num_hardest = int(num_samples * sampler_fraction)
  num_hardest = ((num_hardest / virtual_batch_size) + 1) * virtual_batch_size
  num_hardest = min(num_samples, num_hardest)
where division is Python 2 floor division on non-negative integers. -/

def virtual_batch_size (batch_size iter_size : ℕ) : ℕ := batch_size * iter_size

/-- Embeds the num_hardest computation of SolverWrapper._init.  For a
non-negative product, Python int() truncation is the floor. -/
def num_hardest_calc (num_samples : ℕ) (sampler_fraction : ℚ) (vbs : ℕ) : ℕ :=
  let nh0 : ℕ := (Int.toNat ⌊(num_samples : ℚ) * sampler_fraction⌋)
  min num_samples ((nh0 / vbs + 1) * vbs)

/-! ### Hard-example miner: selection (SolverWrapper._find_hardest_samples, lines 439-444)

The code enumerates the losses, stable-sorts by loss with reverse=True
(Python sort is stable: among equal keys the original order is kept),
truncates to num_hardest and projects out the indices. -/

/-- Comparison used by the stable sort: sort key is the loss, descending
(reverse=True flips the key comparison but keeps stability). -/
def lossDesc (a b : ℕ × ℚ) : Prop := b.2 ≤ a.2

instance : DecidableRel lossDesc := fun a b => inferInstanceAs (Decidable (b.2 ≤ a.2))

/-- The strict-tie-broken order the stable descending sort realizes on the
enumerated losses: larger loss first, and among equal losses the smaller
original index first. -/
def lossIdxLe (a b : ℕ × ℚ) : Prop := b.2 < a.2 ∨ (a.2 = b.2 ∧ a.1 ≤ b.1)

instance : DecidableRel lossIdxLe := fun a b =>
  inferInstanceAs (Decidable (b.2 < a.2 ∨ (a.2 = b.2 ∧ a.1 ≤ b.1)))

instance : IsAntisymm (ℕ × ℚ) lossIdxLe where
  antisymm a b hab hba := by
    rcases hab with h1 | ⟨he1, hi1⟩ <;> rcases hba with h2 | ⟨he2, hi2⟩
    · exact absurd h1 (not_lt.mpr (le_of_lt h2))
    · exact absurd h1 (not_lt.mpr (le_of_eq he2.symm))
    · exact absurd h2 (not_lt.mpr (le_of_eq he1.symm))
    · exact Prod.ext (le_antisymm hi1 hi2) he1

/-- Embeds SolverWrapper._find_hardest_samples: enumerate the losses,
stable-sort descending by loss, keep the first num_hardest, return the
indices. -/
def find_hardest_samples (losses : List ℚ) (num_hardest : ℕ) : List ℕ :=
  ((List.insertionSort lossDesc losses.enum).take num_hardest).map Prod.fst

lemma insertionSort_length (r : ℕ × ℚ → ℕ × ℚ → Prop) [DecidableRel r]
    (l : List (ℕ × ℚ)) : (List.insertionSort r l).length = l.length :=
  (List.perm_insertionSort r l).length_eq

lemma find_hardest_samples_length (losses : List ℚ) (k : ℕ) :
    (find_hardest_samples losses k).length = min k losses.length := by
  simp [find_hardest_samples, insertionSort_length, List.length_take]

instance : IsTrans (ℕ × ℚ) lossIdxLe where
  trans a b c hab hbc := by
    rcases hab with h1 | ⟨he1, hi1⟩ <;> rcases hbc with h2 | ⟨he2, hi2⟩
    · exact Or.inl (lt_trans h2 h1)
    · exact Or.inl (he2 ▸ h1)
    · exact Or.inl (he1 ▸ h2)
    · exact Or.inr ⟨he1.trans he2, le_trans hi1 hi2⟩

lemma mem_enumFrom_fst_le (n : ℕ) (xs : List ℚ) :
    ∀ b ∈ List.enumFrom n xs, n ≤ b.1 := by
  induction xs generalizing n with
  | nil => intro b hb; simp at hb
  | cons x xs ih =>
    intro b hb
    rw [List.enumFrom_cons] at hb
    rcases List.mem_cons.mp hb with h | h
    · exact h ▸ le_refl n
    · exact le_trans (Nat.le_succ n) (ih (n + 1) b h)

lemma pairwise_fst_lt_enumFrom (n : ℕ) (xs : List ℚ) :
    List.Pairwise (fun a b : ℕ × ℚ => a.1 < b.1) (List.enumFrom n xs) := by
  induction xs generalizing n with
  | nil => simp
  | cons x xs ih =>
    rw [List.enumFrom_cons]
    exact List.Pairwise.cons
      (fun b hb => lt_of_lt_of_le (Nat.lt_succ_self n) (mem_enumFrom_fst_le (n + 1) xs b hb))
      (ih (n + 1))

lemma pairwise_fst_lt_enum (xs : List ℚ) :
    List.Pairwise (fun a b : ℕ × ℚ => a.1 < b.1) xs.enum :=
  pairwise_fst_lt_enumFrom 0 xs

/-- Inserting an element whose index is below every index in a
lex-sorted list (loss descending, index ascending) with the plain
loss-descending comparison keeps the list lex-sorted.  This is the heart
of the stability argument: the element being inserted always comes
earlier in the original order than everything already sorted. -/
lemma orderedInsert_sorted_lossIdxLe (a : ℕ × ℚ) (l : List (ℕ × ℚ))
    (hs : List.Sorted lossIdxLe l) (hlt : ∀ b ∈ l, a.1 < b.1) :
    List.Sorted lossIdxLe (List.orderedInsert lossDesc a l) := by
  induction l with
  | nil => simp [List.Sorted]
  | cons b t ih =>
    by_cases h : lossDesc a b
    · rw [List.orderedInsert, if_pos h]
      have hab : lossIdxLe a b := by
        rcases lt_or_eq_of_le h with hlt2 | heq
        · exact Or.inl hlt2
        · exact Or.inr ⟨heq.symm, le_of_lt (hlt b (List.mem_cons_self b t))⟩
      refine List.sorted_cons.mpr ⟨?_, hs⟩
      intro c hc
      rcases List.mem_cons.mp hc with h1 | h1
      · exact h1 ▸ hab
      · exact IsTrans.trans a b c hab (List.rel_of_sorted_cons hs c h1)
    · rw [List.orderedInsert, if_neg h]
      have hba : lossIdxLe b a := Or.inl (lt_of_not_le h)
      refine List.sorted_cons.mpr ⟨?_, ih hs.of_cons
        (fun c hc => hlt c (List.mem_cons_of_mem b hc))⟩
      intro c hc
      rcases (List.mem_orderedInsert lossDesc).mp hc with h1 | h1
      · exact h1 ▸ hba
      · exact List.rel_of_sorted_cons hs c h1

/-- A stable sort by loss descending over a list whose indices strictly
increase (the enumerated losses) yields a list sorted by the
lexicographic order: loss descending, ties broken by ascending original
index. -/
lemma sorted_lossIdxLe_insertionSort (l : List (ℕ × ℚ))
    (h : List.Pairwise (fun a b : ℕ × ℚ => a.1 < b.1) l) :
    List.Sorted lossIdxLe (List.insertionSort lossDesc l) := by
  induction l with
  | nil => simp [List.Sorted]
  | cons a t ih =>
    rw [List.insertionSort]
    refine orderedInsert_sorted_lossIdxLe a _ (ih h.of_cons) ?_
    intro b hb
    exact (List.pairwise_cons.mp h).1 b ((List.perm_insertionSort lossDesc t).mem_iff.mp hb)

lemma mem_enum_spec {losses : List ℚ} {x : ℕ × ℚ} (hx : x ∈ losses.enum) :
    x.1 < losses.length ∧ losses.getD x.1 0 = x.2 := by
  have h := List.mem_enum_iff_getElem?.mp hx
  obtain ⟨hlt, he⟩ := List.getElem?_eq_some_iff.mp h
  constructor
  · exact hlt
  · rw [List.getD_eq_getElem?_getD, h]; rfl

lemma nodup_enum (losses : List ℚ) : losses.enum.Nodup :=
  (pairwise_fst_lt_enum losses).imp (fun h => by
    intro he; rw [he] at h; exact lt_irrefl _ h)

/-- C8: for every loss sequence, the miner returns exactly the
keep-count indices with the largest loss values, ordered by loss
descending, and among equal loss values the smaller original index comes
first.  Conjunct 1: the number kept is the truncation length (clamped to
the pool size).  Conjunct 2: the returned indices are ordered by loss
strictly descending, with ties ordered by ascending original index.
Conjunct 3: every returned index dominates every non-returned index in
that order, so the selection is exactly the top block. -/
theorem miner_ordering_stable (losses : List ℚ) (k : ℕ) :
    (find_hardest_samples losses k).length = min k losses.length ∧
    List.Pairwise
      (fun i j => losses.getD j 0 < losses.getD i 0 ∨
        (losses.getD i 0 = losses.getD j 0 ∧ i < j)) (find_hardest_samples losses k) ∧
    ∀ i ∈ find_hardest_samples losses k, ∀ j, j < losses.length →
      j ∉ find_hardest_samples losses k →
      (losses.getD j 0 < losses.getD i 0 ∨
        (losses.getD i 0 = losses.getD j 0 ∧ i < j)) := by
  have hperm : (List.insertionSort lossDesc losses.enum).Perm losses.enum :=
    List.perm_insertionSort lossDesc losses.enum
  have hsorted : List.Sorted lossIdxLe (List.insertionSort lossDesc losses.enum) :=
    sorted_lossIdxLe_insertionSort _ (pairwise_fst_lt_enum losses)
  have hnodup : (List.insertionSort lossDesc losses.enum).Nodup :=
    hperm.nodup_iff.mpr (nodup_enum losses)
  have hmem : ∀ x ∈ List.insertionSort lossDesc losses.enum,
      x.1 < losses.length ∧ losses.getD x.1 0 = x.2 :=
    fun x hx => mem_enum_spec (hperm.mem_iff.mp hx)
  have hfh : find_hardest_samples losses k =
      ((List.insertionSort lossDesc losses.enum).take k).map Prod.fst := rfl
  refine ⟨find_hardest_samples_length losses k, ?_, ?_⟩
  · have htake : List.Pairwise lossIdxLe ((List.insertionSort lossDesc losses.enum).take k) :=
      List.Pairwise.sublist (List.take_sublist k _) hsorted
    have hnd : ((List.insertionSort lossDesc losses.enum).take k).Nodup :=
      List.Pairwise.sublist (List.take_sublist k _) hnodup
    have hcomb := htake.and hnd
    rw [hfh, List.pairwise_map]
    refine hcomb.imp_of_mem ?_
    intro a b ha hb hr
    have ha2 := hmem a (List.mem_of_mem_take ha)
    have hb2 := hmem b (List.mem_of_mem_take hb)
    rcases hr.1 with h1 | ⟨he, hi⟩
    · left; rw [ha2.2, hb2.2]; exact h1
    · right
      refine ⟨by rw [ha2.2, hb2.2]; exact he, ?_⟩
      rcases lt_or_eq_of_le hi with h2 | h2
      · exact h2
      · exact absurd (Prod.ext h2 he) hr.2
  · intro i hi j hj hjout
    rw [hfh] at hi hjout
    obtain ⟨x, hxtake, hxi⟩ := List.mem_map.mp hi
    have hx2 := hmem x (List.mem_of_mem_take hxtake)
    have hjenum : ((j, losses.getD j 0) : ℕ × ℚ) ∈ losses.enum := by
      apply List.mem_enum_iff_getElem?.mpr
      simp [List.getD_eq_getElem?_getD, List.getElem?_eq_getElem hj]
    have hjs : ((j, losses.getD j 0) : ℕ × ℚ) ∈ List.insertionSort lossDesc losses.enum :=
      hperm.mem_iff.mpr hjenum
    have hsplit : ((j, losses.getD j 0) : ℕ × ℚ) ∈
        (List.insertionSort lossDesc losses.enum).take k ∨
        ((j, losses.getD j 0) : ℕ × ℚ) ∈ (List.insertionSort lossDesc losses.enum).drop k := by
      rw [← List.mem_append, List.take_append_drop]; exact hjs
    rcases hsplit with hcase | hcase
    · exact absurd (List.mem_map.mpr ⟨_, hcase, rfl⟩) hjout
    · have hsa : List.Pairwise lossIdxLe
          ((List.insertionSort lossDesc losses.enum).take k ++
            (List.insertionSort lossDesc losses.enum).drop k) := by
        rw [List.take_append_drop]; exact hsorted
      have hda := (List.pairwise_append.mp hsa).2.2
      have hne : x.1 ≠ j := fun hxy => hjout (List.mem_map.mpr ⟨x, hxtake, hxy⟩)
      rcases hda x hxtake ((j, losses.getD j 0) : ℕ × ℚ) hcase with h1 | ⟨he, hle⟩
      · left; rw [← hxi, hx2.2]; exact h1
      · right
        subst hxi
        exact ⟨by rw [hx2.2]; exact he, lt_of_le_of_ne hle hne⟩

lemma lt_div_add_one_mul (q g : ℕ) (hg : 0 < g) : q < (q / g + 1) * g := by
  have h2 := Nat.div_add_mod q g
  have h3 := Nat.mod_lt q hg
  nlinarith [Nat.div_mul_le_self q g]

/-- Modelled from the spec: ceil_to_multiple(x, g) is the smallest
multiple of g that is greater than or equal to x.  This definition
follows the spec's words and is compared against the num_hardest formula
the code actually computes. -/
def ceil_to_multiple (x : ℚ) (g : ℕ) : ℕ := g * Int.toNat ⌈x / (g : ℚ)⌉

/-- C2 counterexample: with 8 losses, keep fraction 1/2 and granularity 4
the product 8 * (1/2) = 4 is already an exact multiple of 4, so the
spec's ceil_to_multiple formula keeps 4 samples, but the code's
num_hardest computation, which adds a full granule after flooring, keeps
all 8; the truncation length in _find_hardest_samples differs likewise. -/
theorem miner_count_ceil_counterexample :
    num_hardest_calc 8 (1 / 2) 4 = 8 ∧
    min 8 (ceil_to_multiple ((8 : ℚ) * (1 / 2)) 4) = 4 ∧
    (find_hardest_samples [1, 2, 3, 4, 5, 6, 7, 8] (num_hardest_calc 8 (1 / 2) 4)).length = 8 ∧
    (8 : ℕ) ≠ 4 := by
  refine ⟨by norm_num [num_hardest_calc]; decide, by norm_num [ceil_to_multiple], ?_, by decide⟩
  rw [find_hardest_samples_length]
  norm_num [num_hardest_calc]
  decide

/-- C2 amended: the number of indices the hard-example miner keeps
equals min(n, m) where m = ((floor(n*f) / g) + 1) * g is the smallest
multiple of g STRICTLY greater than floor(n * f) (not the smallest
multiple >= n * f: when n * f is an exact multiple of g the code keeps a
full extra granule).  Conjuncts: the kept count is that truncation
length; m is a multiple of g; m exceeds floor(n * f); and m is least
among multiples of g exceeding floor(n * f). -/
theorem miner_keep_count_formula (n : ℕ) (f : ℚ) (g : ℕ) (losses : List ℚ)
    (hg : 1 ≤ g) (hf0 : 0 < f) (hf1 : f ≤ 1) (hlen : losses.length = n) :
    (find_hardest_samples losses (num_hardest_calc n f g)).length =
      min n ((Int.toNat ⌊(n : ℚ) * f⌋ / g + 1) * g) ∧
    g ∣ (Int.toNat ⌊(n : ℚ) * f⌋ / g + 1) * g ∧
    Int.toNat ⌊(n : ℚ) * f⌋ < (Int.toNat ⌊(n : ℚ) * f⌋ / g + 1) * g ∧
    (∀ m, g ∣ m → Int.toNat ⌊(n : ℚ) * f⌋ < m →
      (Int.toNat ⌊(n : ℚ) * f⌋ / g + 1) * g ≤ m) := by
  have hg0 : 0 < g := hg
  refine ⟨?_, dvd_mul_left g _, lt_div_add_one_mul _ g hg0, ?_⟩
  · rw [find_hardest_samples_length, hlen, num_hardest_calc]
    exact min_eq_left (min_le_left _ _)
  · intro m hdvd hlt
    obtain ⟨t, rfl⟩ := hdvd
    rw [mul_comm g t]
    have ht : Int.toNat ⌊(n : ℚ) * f⌋ / g < t :=
      (Nat.div_lt_iff_lt_mul hg0).mpr (by rwa [mul_comm t g])
    exact Nat.mul_le_mul_right g ht

/-- C2 amended witness at n = 8, f = 1/2, g = 4 (keeps all 8). -/
theorem miner_keep_count_formula_witness :
    (find_hardest_samples [1, 2, 3, 4, 5, 6, 7, 8] (num_hardest_calc 8 (1 / 2) 4)).length =
      min 8 ((Int.toNat ⌊(8 : ℚ) * (1 / 2)⌋ / 4 + 1) * 4) ∧
    4 ∣ (Int.toNat ⌊(8 : ℚ) * (1 / 2)⌋ / 4 + 1) * 4 ∧
    Int.toNat ⌊(8 : ℚ) * (1 / 2)⌋ < (Int.toNat ⌊(8 : ℚ) * (1 / 2)⌋ / 4 + 1) * 4 ∧
    (∀ m, 4 ∣ m → Int.toNat ⌊(8 : ℚ) * (1 / 2)⌋ < m →
      (Int.toNat ⌊(8 : ℚ) * (1 / 2)⌋ / 4 + 1) * 4 ≤ m) :=
  miner_keep_count_formula 8 (1 / 2) 4 [1, 2, 3, 4, 5, 6, 7, 8]
    (by norm_num) (by norm_num) (by norm_num) (by norm_num)

/-- C1 counterexample: with 3 labels and 1 image per label the candidate
pool has 3 samples; with sampler_fraction 1 and virtual batch size 2 the
mined batch has 3 indices, and 3 is not a multiple of 2, so the second
assertion of _train (len(ids) % virtual_batch_size == 0) fails even
though the fraction is in (0, 1] and the virtual batch size is >= 1. -/
theorem mined_batch_counterexample :
    virtual_batch_size 2 1 = 2 ∧
    (0 : ℚ) < 1 ∧ (1 : ℚ) ≤ 1 ∧ 1 ≤ virtual_batch_size 2 1 ∧
    (find_hardest_samples [1, 2, 3] (num_hardest_calc (3 * 1) 1 (virtual_batch_size 2 1))).length
      % virtual_batch_size 2 1 ≠ 0 := by
  refine ⟨by decide, by norm_num, by norm_num, by decide, ?_⟩
  rw [find_hardest_samples_length]
  norm_num [num_hardest_calc, virtual_batch_size]
  decide

/-- C1 amended: whenever the candidate-pool size (label_count *
num_images) is itself a positive multiple of the virtual batch size, the
mined batch handed to _train has a size that is at least the virtual
batch size and an exact multiple of it, so both assertions in _train
hold; without that divisibility the assertions can fail (see the
counterexample). -/
theorem mined_batch_multiple_of_vbs (label_count num_images batch_size iter_size : ℕ)
    (f : ℚ) (losses : List ℚ)
    (hf0 : 0 < f) (hf1 : f ≤ 1)
    (hvbs : 1 ≤ virtual_batch_size batch_size iter_size)
    (hdvd : virtual_batch_size batch_size iter_size ∣ label_count * num_images)
    (hpos : 1 ≤ label_count * num_images)
    (hlen : losses.length = label_count * num_images) :
    virtual_batch_size batch_size iter_size ≤
      (find_hardest_samples losses
        (num_hardest_calc (label_count * num_images) f
          (virtual_batch_size batch_size iter_size))).length ∧
    (find_hardest_samples losses
        (num_hardest_calc (label_count * num_images) f
          (virtual_batch_size batch_size iter_size))).length
      % virtual_batch_size batch_size iter_size = 0 := by
  have hlen2 : (find_hardest_samples losses
      (num_hardest_calc (label_count * num_images) f
        (virtual_batch_size batch_size iter_size))).length =
      num_hardest_calc (label_count * num_images) f
        (virtual_batch_size batch_size iter_size) := by
    rw [find_hardest_samples_length, hlen, num_hardest_calc]
    exact min_eq_left (min_le_left _ _)
  rw [hlen2, num_hardest_calc]
  constructor
  · refine le_min (Nat.le_of_dvd hpos hdvd) ?_
    calc virtual_batch_size batch_size iter_size
        = 1 * virtual_batch_size batch_size iter_size := (one_mul _).symm
      _ ≤ _ := Nat.mul_le_mul_right _ (Nat.succ_le_succ (Nat.zero_le _))
  · rcases min_cases (label_count * num_images)
      ((Int.toNat ⌊((label_count * num_images : ℕ) : ℚ) * f⌋ /
          virtual_batch_size batch_size iter_size + 1) *
        virtual_batch_size batch_size iter_size) with ⟨heq, _⟩ | ⟨heq, _⟩
    · obtain ⟨c, hc⟩ := hdvd
      rw [heq, hc]
      exact Nat.mul_mod_right _ _
    · rw [heq]
      exact Nat.mul_mod_left _ _

/-- C1 amended witness: 2 labels, 2 images per label, batch size 2,
iter size 1, fraction 1/2: the pool of 4 is a multiple of the virtual
batch size 2 and the mined batch obeys both _train assertions. -/
theorem mined_batch_multiple_of_vbs_witness :
    virtual_batch_size 2 1 ≤
      (find_hardest_samples [1, 2, 3, 4]
        (num_hardest_calc (2 * 2) (1 / 2) (virtual_batch_size 2 1))).length ∧
    (find_hardest_samples [1, 2, 3, 4]
        (num_hardest_calc (2 * 2) (1 / 2) (virtual_batch_size 2 1))).length
      % virtual_batch_size 2 1 = 0 :=
  mined_batch_multiple_of_vbs 2 2 2 1 (1 / 2) [1, 2, 3, 4]
    (by norm_num) (by norm_num) (by decide) (by decide) (by decide) (by decide)

/-! ### Orchestrator bookkeeping (SolverWrapper._solve, lines 480-508)

Per meta-iteration _solve evaluates the model (returning None when no
query/gallery data is present: a Python 2 None compares below every
float, so it never beats the running best), updates the best rank-1
accuracy and the iteration it books for it, and unconditionally
checkpoints.  The evaluation outcome is an oracle parameter. -/

structure SolveState where
  best_acc : ℚ
  best_iter : ℤ
  snapshots : List ℕ

/-- One meta-iteration of the _solve bookkeeping: at meta-iteration t the
evaluation result (some accuracy, or none without test data) updates the
running best; when it strictly exceeds the best, best_iter is set to
train_iter - 1 as in line 495; _save_state runs unconditionally. -/
def solveStep (evals : ℕ → Option ℚ) (t : ℕ) (st : SolveState) : SolveState :=
  let updated :=
    match evals t with
    | some acc =>
        if acc > st.best_acc then
          { st with best_acc := acc, best_iter := (t : ℤ) - 1 }
        else st
    | none => st
  { updated with snapshots := updated.snapshots ++ [t] }

/-- The _solve loop over meta-iterations 0, 1, ..., max_iter - 1,
starting from best accuracy 0 at iteration 0. -/
def solveRun (evals : ℕ → Option ℚ) (max_iter : ℕ) : SolveState :=
  (List.range max_iter).foldl (fun st t => solveStep evals t st) ⟨0, 0, []⟩

/-- C4 counterexample: in the very first meta-iteration an evaluation of
1/2 beats the initial best of 0, and the code books best_iter as
train_iter - 1 = -1, not the meta-iteration 0 at which the evaluation
was achieved as the claim states. -/
theorem best_iter_counterexample :
    (solveRun (fun _ => some (1 / 2)) 1).best_acc = 1 / 2 ∧
    (solveRun (fun _ => some (1 / 2)) 1).best_iter = -1 ∧
    (solveRun (fun _ => some (1 / 2)) 1).best_iter ≠ 0 := by
  refine ⟨?_, ?_, ?_⟩ <;>
    norm_num [solveRun, solveStep, List.range_succ]

/-- C4 amended: whenever a meta-iteration's evaluation strictly exceeds
the running best, the orchestrator updates best_acc to that value but
records best_iter as train_iter - 1 (one less than the meta-iteration of
the evaluation); and the checkpoint bookkeeping is unaffected: every
meta-iteration appends its snapshot regardless of the comparison, so a
full run snapshots exactly at meta-iterations 0..max_iter-1. -/
theorem best_tracking_update (evals : ℕ → Option ℚ) (t : ℕ) (st : SolveState) (acc : ℚ)
    (heval : evals t = some acc) (hgt : acc > st.best_acc) :
    (solveStep evals t st).best_acc = acc ∧
    (solveStep evals t st).best_iter = (t : ℤ) - 1 ∧
    (solveStep evals t st).snapshots = st.snapshots ++ [t] ∧
    (∀ ev : ℕ → Option ℚ, ∀ n : ℕ, (solveRun ev n).snapshots = List.range n) := by
  refine ⟨?_, ?_, ?_, ?_⟩
  · simp [solveStep, heval, hgt]
  · simp [solveStep, heval, hgt]
  · simp only [solveStep, heval]
    rw [if_pos hgt]
  · intro ev n
    have key : ∀ m : ℕ, ∀ s : SolveState,
        ((List.range m).foldl (fun st t => solveStep ev t st) s).snapshots =
          s.snapshots ++ List.range m := by
      intro m
      induction m with
      | zero => intro s; simp
      | succ m ih =>
        intro s
        rw [List.range_succ, List.foldl_append]
        simp only [List.foldl_cons, List.foldl_nil]
        have hsnap : ∀ t s', (solveStep ev t s').snapshots = s'.snapshots ++ [t] := by
          intro t s'
          cases hev : ev t with
          | none => simp [solveStep, hev]
          | some a =>
            by_cases hgt2 : a > s'.best_acc <;> simp [solveStep, hev, hgt2]
        rw [hsnap, ih]
        simp [List.range_succ, List.append_assoc]
    have := key n ⟨0, 0, []⟩
    simpa [solveRun] using this

/-- C4 amended witness: a single round with evaluation 1/2 updates the
best accuracy, books best_iter = -1, and snapshots round 0. -/
theorem best_tracking_update_witness :
    (solveStep (fun _ => some (1 / 2)) 0 ⟨0, 0, []⟩).best_acc = 1 / 2 ∧
    (solveStep (fun _ => some (1 / 2)) 0 ⟨0, 0, []⟩).best_iter = (0 : ℤ) - 1 ∧
    (solveStep (fun _ => some (1 / 2)) 0 ⟨0, 0, []⟩).snapshots =
      (⟨0, 0, []⟩ : SolveState).snapshots ++ [0] ∧
    (∀ ev : ℕ → Option ℚ, ∀ n : ℕ, (solveRun ev n).snapshots = List.range n) :=
  best_tracking_update (fun _ => some (1 / 2)) 0 ⟨0, 0, []⟩ (1 / 2) rfl (by norm_num)

/-! ### Corpus manifest parsing (SampleDataFromDisk.__init__, lines 22-40)

Each line is stripped and split on whitespace runs; the first token is
the image path and int() is applied to the second; any further tokens
are never read.  A missing second token (IndexError) or a non-integer
second token (ValueError) aborts the load; the failure is modelled as
none. -/

/-- Whitespace tokenization as performed by Python str.split() with no
arguments: split the character sequence on runs of whitespace, keeping
only the non-empty groups (so leading/trailing whitespace and the
line.strip() are both absorbed).  The accumulator holds the current
token reversed. -/
def splitWsAux : List Char → List Char → List (List Char)
  | [], acc => if acc.isEmpty then [] else [acc.reverse]
  | c :: cs, acc =>
    if c.isWhitespace then
      if acc.isEmpty then splitWsAux cs [] else acc.reverse :: splitWsAux cs []
    else splitWsAux cs (c :: acc)

def tokensOf (line : List Char) : List (List Char) := splitWsAux line []

/-- Decimal digit parse for Python int(): every character must be a
digit and there must be at least one. -/
def parseNatDigits : List Char → Option ℕ
  | [] => none
  | cs => cs.foldl (fun acc c =>
      match acc with
      | none => none
      | some n => if c.isDigit then some (n * 10 + (c.toNat - 48)) else none) (some 0)

/-- Python int() applied to a whitespace-free token: optional sign then
decimal digits; anything else raises ValueError, modelled as none. -/
def parseIntToken (t : List Char) : Option ℤ :=
  match t with
  | [] => none
  | c :: cs =>
    if c = '-' then (parseNatDigits cs).map (fun n => -(n : ℤ))
    else if c = '+' then (parseNatDigits cs).map (fun n => (n : ℤ))
    else (parseNatDigits t).map (fun n => (n : ℤ))

/-- Embeds the per-line parse of SampleDataFromDisk.__init__: arr[0] is
the path, int(arr[1]) the label, and any further tokens are never
touched; fewer than two tokens (IndexError) or a non-integer second
token (ValueError) fails the load. -/
def parseLine (line : List Char) : Option (List Char × ℤ) :=
  match tokensOf line with
  | p :: l :: _ =>
    match parseIntToken l with
    | some n => some (p, n)
    | none => none
  | _ => none

/-- Embeds the manifest load loop: every line must parse, and the
samples are collected in file order; the first failing line aborts the
whole load. -/
def loadManifest : List (List Char) → Option (List (List Char × ℤ))
  | [] => some []
  | line :: rest =>
    match parseLine line, loadManifest rest with
    | some s, some ss => some (s :: ss)
    | _, _ => none

/-- C5 counterexample: the line "img.jpg 5 extra" has three
whitespace-separated tokens, the first a path and the second an integer;
the loader accepts it with the extra token ignored and a manifest
containing it loads successfully, whereas the claim says such a line
must make the load fail. -/
theorem manifest_extra_tokens_counterexample :
    (tokensOf ['i', 'm', 'g', '.', 'j', 'p', 'g', ' ', '5', ' ', 'e', 'x', 't', 'r', 'a']).length
      = 3 ∧
    parseLine ['i', 'm', 'g', '.', 'j', 'p', 'g', ' ', '5', ' ', 'e', 'x', 't', 'r', 'a'] =
      some (['i', 'm', 'g', '.', 'j', 'p', 'g'], 5) ∧
    loadManifest [['a', ' ', '1'],
      ['i', 'm', 'g', '.', 'j', 'p', 'g', ' ', '5', ' ', 'e', 'x', 't', 'r', 'a']] =
      some [(['a'], 1), (['i', 'm', 'g', '.', 'j', 'p', 'g'], 5)] := by
  refine ⟨by decide, by decide, by decide⟩

lemma parseLine_isSome_iff (line : List Char) :
    (parseLine line).isSome ↔
      ∃ p l rest, tokensOf line = p :: l :: rest ∧ (parseIntToken l).isSome := by
  rcases h : tokensOf line with _ | ⟨p, _ | ⟨l, rest⟩⟩
  · simp [parseLine, h]
  · simp [parseLine, h]
  · rcases hi : parseIntToken l with _ | n <;> simp [parseLine, h, hi]
    exact ⟨p, l, ⟨rfl, rfl⟩, by rw [hi]; rfl⟩

/-- C5 amended: loading a manifest succeeds exactly when every line has
at least two whitespace-separated tokens and its second token parses as
an integer; equivalently, it fails exactly when some line has fewer than
two tokens or a non-integer second token.  Lines with three or more
tokens whose first two are well-formed are accepted with the extra
tokens ignored (see the counterexample), rather than rejected. -/
theorem manifest_load_characterization (lines : List (List Char)) :
    (loadManifest lines).isSome ↔
      ∀ line ∈ lines,
        ∃ p l rest, tokensOf line = p :: l :: rest ∧ (parseIntToken l).isSome := by
  induction lines with
  | nil => simp [loadManifest]
  | cons line rest ih =>
    constructor
    · intro h
      intro l hl
      rcases List.mem_cons.mp hl with rfl | hmem
      · rcases hp : parseLine l with _ | s
        · rw [loadManifest, hp] at h; simp at h
        · exact (parseLine_isSome_iff l).mp (by rw [hp]; rfl)
      · refine (ih.mp ?_) l hmem
        rcases hr : loadManifest rest with _ | ss
        · rcases hp : parseLine line with _ | s <;> rw [loadManifest, hp, hr] at h <;> simp at h
        · rfl
    · intro h
      have h1 : (parseLine line).isSome :=
        (parseLine_isSome_iff line).mpr (h line (List.mem_cons_self line rest))
      have h2 : (loadManifest rest).isSome :=
        ih.mpr (fun l hl => h l (List.mem_cons_of_mem line hl))
      rcases hp : parseLine line with _ | s
      · rw [hp] at h1; simp at h1
      · rcases hr : loadManifest rest with _ | ss
        · rw [hr] at h2; simp at h2
        · rw [loadManifest, hp, hr]; rfl


/-! ### Retrieval evaluator (SolverWrapper._calc_metrics._compute_ap, lines 351-382)

The per-query loop walks the ranked gallery list; on finding a good
index it sets the CMC vector to 1 from the current position onward and
bumps the intersection counter; average precision accumulates by the
trapezoidal rule; the loop breaks as soon as num_good_now equals
num_good_total.  Floats are modelled by rationals. -/

/-- The numpy assignment loc_cmc[n:] = 1. -/
def setCmcFrom (l : List ℚ) (n : ℕ) : List ℚ :=
  l.take n ++ List.replicate (l.length - n) 1

structure ApState where
  cmc : List ℚ
  oldRecall : ℚ
  oldPrecision : ℚ
  ap : ℚ
  intersectSize : ℕ
  j : ℕ
  numGoodNow : ℕ
deriving DecidableEq

/-- Initial accumulator of _compute_ap: an all-zero CMC of ranked-list
length, old_recall 0, old_precision 1, AP 0, counters 0. -/
def apInit (len : ℕ) : ApState :=
  ⟨List.replicate len 0, 0, 1, 0, 0, 0, 0⟩

/-- One iteration of the _compute_ap loop body, processing gallery index
t at ranked position st.j. -/
def apStep (good : List ℕ) (total : ℕ) (t : ℕ) (st : ApState) : ApState :=
  let flag := t ∈ good
  let cmc2 := if flag then setCmcFrom st.cmc st.j else st.cmc
  let num2 := if flag then st.numGoodNow + 1 else st.numGoodNow
  let inter2 := if flag then st.intersectSize + 1 else st.intersectSize
  let rcl : ℚ := if 0 < total then (inter2 : ℚ) / (total : ℚ) else 0
  let precision : ℚ := (inter2 : ℚ) / ((st.j : ℚ) + 1)
  let ap2 := st.ap + 1 / 2 * (rcl - st.oldRecall) * (st.oldPrecision + precision)
  ⟨cmc2, rcl, precision, ap2, inter2, st.j + 1, num2⟩

/-- The _compute_ap loop as written, with the early break once
num_good_now reaches num_good_total (checked after each iteration). -/
def apLoopBreak (good : List ℕ) (total : ℕ) : List ℕ → ApState → ApState
  | [], st => st
  | t :: rest, st =>
    if (apStep good total t st).numGoodNow = total then apStep good total t st
    else apLoopBreak good total rest (apStep good total t st)

/-- The same loop with the early break removed: every ranked position is
processed. -/
def apLoopFull (good : List ℕ) (total : ℕ) : List ℕ → ApState → ApState
  | [], st => st
  | t :: rest, st => apLoopFull good total rest (apStep good total t st)

/-- Embeds _compute_ap: returns (loc_ap, loc_cmc) for one query given
its good gallery indices and the ranked gallery index list. -/
def compute_ap (good top : List ℕ) : ℚ × List ℚ :=
  let st := apLoopBreak good good.length top (apInit top.length)
  (st.ap, st.cmc)

/-- The same computation with the early stop removed (per the spec this
should be a pure optimization). -/
def compute_ap_full (good top : List ℕ) : ℚ × List ℚ :=
  let st := apLoopFull good good.length top (apInit top.length)
  (st.ap, st.cmc)

/-- The number of ranked positions the as-written loop processes (the
final value of the code's j counter). -/
def apIters (good top : List ℕ) : ℕ :=
  (apLoopBreak good good.length top (apInit top.length)).j

/-- Gallery indices whose label equals the query label, in gallery
order, as built in _calc_metrics lines 391-392. -/
def good_indices (gallery_labels : List ℤ) (query_label : ℤ) : List ℕ :=
  (gallery_labels.enum.filter (fun p => p.2 = query_label)).map Prod.fst

/-- C3 counterexample: for a query label matching no gallery label the
loop does NOT walk the full ranked list: num_good_now = num_good_total =
0 holds already after the first position, so the break fires and only 1
of the 3 gallery positions is processed (while AP = 0 and the all-zero
CMC do hold and no error is raised). -/
theorem unmatched_query_walk_counterexample :
    good_indices [7, 8, 9] 5 = [] ∧
    compute_ap (good_indices [7, 8, 9] 5) [0, 1, 2] = (0, [0, 0, 0]) ∧
    apIters (good_indices [7, 8, 9] 5) [0, 1, 2] = 1 ∧
    (1 : ℕ) ≠ 3 := by
  have hg : good_indices [7, 8, 9] 5 = [] := by decide
  refine ⟨hg, ?_, ?_, by decide⟩ <;> rw [hg] <;>
    norm_num [compute_ap, apIters, apLoopBreak, apStep, apInit, setCmcFrom, List.replicate]

lemma apLoopBreak_nil_good (t : ℕ) (r : List ℕ) (len : ℕ) :
    apLoopBreak [] 0 (t :: r) (apInit len) =
      ⟨List.replicate len 0, 0, 0, 0, 0, 1, 0⟩ := by
  rw [apLoopBreak]
  norm_num [apStep, apInit]

/-- C3 amended: a query whose label matches no gallery label has an
empty good-index list and contributes AP = 0 and an all-zero CMC vector,
and no error is raised (the evaluation is total); but the early stop
DOES trigger: num_good_now = num_good_total = 0 already holds after the
first ranked position, so the loop processes exactly one position (when
the gallery is non-empty) instead of walking the full ranked list. -/
theorem unmatched_query_evaluation (gallery_labels : List ℤ) (q : ℤ) (top : List ℕ)
    (h : ∀ l ∈ gallery_labels, l ≠ q) :
    good_indices gallery_labels q = [] ∧
    compute_ap (good_indices gallery_labels q) top = (0, List.replicate top.length 0) ∧
    apIters (good_indices gallery_labels q) top = min 1 top.length := by
  have hfil : gallery_labels.enum.filter (fun p : ℕ × ℤ => p.2 = q) = [] := by
    rw [List.filter_eq_nil]
    intro a ha
    have hmem : a.2 ∈ gallery_labels :=
      List.getElem?_mem (List.mem_enum_iff_getElem?.mp ha)
    simpa using h a.2 hmem
  have hg : good_indices gallery_labels q = [] := by
    rw [good_indices, hfil]; rfl
  refine ⟨hg, ?_, ?_⟩
  · rw [hg]
    cases top with
    | nil => rfl
    | cons t r =>
      rw [compute_ap, show (([] : List ℕ)).length = 0 from rfl, apLoopBreak_nil_good]
  · rw [hg]
    cases top with
    | nil => rfl
    | cons t r =>
      rw [apIters, show (([] : List ℕ)).length = 0 from rfl, apLoopBreak_nil_good]
      simp

/-- C3 amended witness: gallery labels 7 and 8, query label 5, ranked
list of two gallery positions. -/
theorem unmatched_query_evaluation_witness :
    (∀ l ∈ ([7, 8] : List ℤ), l ≠ 5) ∧
    (good_indices [7, 8] 5 = [] ∧
     compute_ap (good_indices [7, 8] 5) [0, 1] =
       (0, List.replicate ([0, 1] : List ℕ).length 0) ∧
     apIters (good_indices [7, 8] 5) [0, 1] = min 1 ([0, 1] : List ℕ).length) :=
  ⟨by decide, unmatched_query_evaluation [7, 8] 5 [0, 1] (by decide)⟩

lemma apStep_numGoodNow (good : List ℕ) (total t : ℕ) (st : ApState) :
    (apStep good total t st).numGoodNow =
      if t ∈ good then st.numGoodNow + 1 else st.numGoodNow := rfl

lemma apStep_intersectSize (good : List ℕ) (total t : ℕ) (st : ApState) :
    (apStep good total t st).intersectSize =
      if t ∈ good then st.intersectSize + 1 else st.intersectSize := rfl

/-- After any step, old_recall equals the recall recomputed from the
step's own intersection counter: the loop re-derives recall from
intersect_size each iteration, so this invariant is definitional. -/
lemma apStep_oldRecall_inv (good : List ℕ) (total t : ℕ) (st : ApState) :
    (apStep good total t st).oldRecall =
      if 0 < total then ((apStep good total t st).intersectSize : ℚ) / (total : ℚ) else 0 := rfl

/-- Once no remaining ranked position is a good index, the rest of the
(break-free) loop changes neither the accumulated AP nor the CMC vector:
recall stays equal to old_recall, so each trapezoid contributes zero,
and the flag that would rewrite the CMC is never set. -/
lemma apLoopFull_no_good (good : List ℕ) (total : ℕ) (rest : List ℕ) (st : ApState)
    (hnone : ∀ t ∈ rest, t ∉ good)
    (hrec : st.oldRecall =
      if 0 < total then (st.intersectSize : ℚ) / (total : ℚ) else 0) :
    (apLoopFull good total rest st).ap = st.ap ∧
    (apLoopFull good total rest st).cmc = st.cmc := by
  induction rest generalizing st with
  | nil => exact ⟨rfl, rfl⟩
  | cons t r ih =>
    have hflag : t ∉ good := hnone t (List.mem_cons_self t r)
    have hstep : apStep good total t st =
        ⟨st.cmc, st.oldRecall, (st.intersectSize : ℚ) / ((st.j : ℚ) + 1), st.ap,
          st.intersectSize, st.j + 1, st.numGoodNow⟩ := by
      rw [apStep]
      simp only [if_neg hflag]
      rw [← hrec]
      simp
    rw [apLoopFull, hstep]
    have hih := ih ⟨st.cmc, st.oldRecall, (st.intersectSize : ℚ) / ((st.j : ℚ) + 1), st.ap,
        st.intersectSize, st.j + 1, st.numGoodNow⟩
      (fun u hu => hnone u (List.mem_cons_of_mem t hu)) hrec
    exact hih

/-- Core equivalence: starting from any state whose counters satisfy the
loop invariants (intersect equals num_good_now, old_recall matches the
recomputed recall, and the remaining good occurrences cannot overshoot
the total), the loop with the early break and the loop without it agree
on AP and CMC. -/
lemma apLoopBreak_eq_full_aux (good : List ℕ) (top : List ℕ) (st : ApState)
    (hcount : st.numGoodNow + top.countP (fun t => decide (t ∈ good)) ≤ good.length)
    (hinter : st.intersectSize = st.numGoodNow)
    (hrec : st.oldRecall =
      if 0 < good.length then (st.intersectSize : ℚ) / ((good.length : ℕ) : ℚ) else 0) :
    (apLoopFull good good.length top st).ap = (apLoopBreak good good.length top st).ap ∧
    (apLoopFull good good.length top st).cmc = (apLoopBreak good good.length top st).cmc := by
  induction top generalizing st with
  | nil => exact ⟨rfl, rfl⟩
  | cons t r ih =>
    rw [apLoopFull, apLoopBreak]
    rw [List.countP_cons] at hcount
    by_cases hb : (apStep good good.length t st).numGoodNow = good.length
    · rw [if_pos hb]
      have hcr : r.countP (fun u => decide (u ∈ good)) = 0 := by
        by_cases hf : t ∈ good
        · rw [apStep_numGoodNow, if_pos hf] at hb
          simp [hf] at hcount
          omega
        · rw [apStep_numGoodNow, if_neg hf] at hb
          simp [hf] at hcount
          omega
      have hnone : ∀ u ∈ r, u ∉ good := by
        intro u hu
        have := List.countP_eq_zero.mp hcr u hu
        simpa using this
      exact apLoopFull_no_good good good.length r _ hnone (apStep_oldRecall_inv good _ t st)
    · rw [if_neg hb]
      refine ih _ ?_ ?_ (apStep_oldRecall_inv good _ t st)
      · by_cases hf : t ∈ good
        · rw [apStep_numGoodNow, if_pos hf]
          simp [hf] at hcount
          omega
        · rw [apStep_numGoodNow, if_neg hf]
          simp [hf] at hcount
          omega
      · rw [apStep_intersectSize, apStep_numGoodNow, hinter]

/-- C7: removing the early-stop break from _compute_ap changes neither
the AP value nor the CMC vector, for every good-index set and ranked
gallery list without duplicates (the ranked list is a permutation of
gallery positions and the good list enumerates distinct positions, so
both are duplicate-free in the evaluator).  The early stop is a pure
optimization. -/
theorem early_stop_pure_optimization (good top : List ℕ)
    (hgood : good.Nodup) (htop : top.Nodup) :
    compute_ap_full good top = compute_ap good top := by
  have hcount : (apInit top.length).numGoodNow +
      top.countP (fun t => decide (t ∈ good)) ≤ good.length := by
    have h0 : (apInit top.length).numGoodNow = 0 := rfl
    rw [h0, zero_add, List.countP_eq_length_filter]
    refine List.Subperm.length_le (List.subperm_of_subset (htop.filter _) ?_)
    intro x hx
    have := (List.mem_filter.mp hx).2
    simpa using this
  have hrec : (apInit top.length).oldRecall =
      if 0 < good.length then (((apInit top.length).intersectSize : ℕ) : ℚ) /
        ((good.length : ℕ) : ℚ) else 0 := by
    have h0 : (apInit top.length).intersectSize = 0 := rfl
    rw [h0]
    simp [apInit]
  have h := apLoopBreak_eq_full_aux good top (apInit top.length) hcount rfl hrec
  exact Prod.ext h.1 h.2

/-- C7 witness: one good index among two ranked positions; with and
without the break the evaluator returns AP 1/4 and CMC [0, 1]. -/
theorem early_stop_pure_optimization_witness :
    ([1] : List ℕ).Nodup ∧ ([0, 1] : List ℕ).Nodup ∧
    compute_ap_full [1] [0, 1] = compute_ap [1] [0, 1] :=
  ⟨by decide, by decide, early_stop_pure_optimization [1] [0, 1] (by decide) (by decide)⟩

/-! ### Balanced sampler (SolverWrapper._sample_data_ids, lines 319-334)

The code shuffles the label list once, then repeatedly sweeps it, and
for every label with a non-empty id set appends one id drawn at random
from that label's ids; the while-loop re-checks the count only between
sweeps, and the result is truncated to exactly num_samples ids.  The
shuffled order is an arbitrary list parameter and np.random.choice is a
pick oracle keyed by the number of ids drawn so far; the unbounded while
loop carries explicit fuel, shown below to be reached at num_images
sweeps already. -/

/-- One sweep of the for-loop body over the shuffled labels: labels with
an empty id set are skipped (continue), every other label contributes
one drawn id. -/
def sweepOnce (labels : List ℤ) (idsOf : ℤ → List ℕ) (pick : ℕ → ℕ)
    (acc : List ℕ) : List ℕ :=
  labels.foldl (fun acc2 label =>
    if (idsOf label).length = 0 then acc2
    else acc2 ++ [(idsOf label).getD (pick acc2.length % (idsOf label).length) 0]) acc

/-- The while len(data_ids) < num_samples loop, sweeping once per
iteration, with fuel bounding the number of sweeps. -/
def sampleLoop (labels : List ℤ) (idsOf : ℤ → List ℕ) (pick : ℕ → ℕ)
    (target : ℕ) : ℕ → List ℕ → List ℕ
  | 0, acc => acc
  | fuel + 1, acc =>
    if acc.length < target then
      sampleLoop labels idsOf pick target fuel (sweepOnce labels idsOf pick acc)
    else acc

/-- Embeds _sample_data_ids: sweep until at least num_samples ids are
collected, then truncate to exactly num_samples. -/
def sample_data_ids (labels : List ℤ) (idsOf : ℤ → List ℕ) (pick : ℕ → ℕ)
    (target fuel : ℕ) : List ℕ :=
  (sampleLoop labels idsOf pick target fuel []).take target

lemma sweepOnce_length (labels : List ℤ) (idsOf : ℤ → List ℕ) (pick : ℕ → ℕ)
    (acc : List ℕ) (hne : ∀ l ∈ labels, idsOf l ≠ []) :
    (sweepOnce labels idsOf pick acc).length = acc.length + labels.length := by
  induction labels generalizing acc with
  | nil => simp [sweepOnce]
  | cons l ls ih =>
    have hl : ¬(idsOf l).length = 0 := by
      simpa [List.length_eq_zero] using hne l (List.mem_cons_self l ls)
    have hstep : sweepOnce (l :: ls) idsOf pick acc =
        sweepOnce ls idsOf pick
          (acc ++ [(idsOf l).getD (pick acc.length % (idsOf l).length) 0]) := by
      rw [sweepOnce, List.foldl_cons, if_neg hl]; rfl
    rw [hstep, ih _ (fun u hu => hne u (List.mem_cons_of_mem l hu))]
    simp [List.length_append]
    omega

lemma sweepOnce_append (labels : List ℤ) (idsOf : ℤ → List ℕ) (pick : ℕ → ℕ)
    (acc : List ℕ) :
    ∃ tl, sweepOnce labels idsOf pick acc = acc ++ tl := by
  induction labels generalizing acc with
  | nil => exact ⟨[], by simp [sweepOnce]⟩
  | cons l ls ih =>
    by_cases hl : (idsOf l).length = 0
    · have hstep : sweepOnce (l :: ls) idsOf pick acc = sweepOnce ls idsOf pick acc := by
        rw [sweepOnce, List.foldl_cons, if_pos hl]; rfl
      rw [hstep]; exact ih acc
    · have hstep : sweepOnce (l :: ls) idsOf pick acc =
          sweepOnce ls idsOf pick
            (acc ++ [(idsOf l).getD (pick acc.length % (idsOf l).length) 0]) := by
        rw [sweepOnce, List.foldl_cons, if_neg hl]; rfl
      obtain ⟨tl, htl⟩ := ih (acc ++ [(idsOf l).getD (pick acc.length % (idsOf l).length) 0])
      exact ⟨[(idsOf l).getD (pick acc.length % (idsOf l).length) 0] ++ tl,
        by rw [hstep, htl, List.append_assoc]⟩

lemma sweepOnce_coverage (labels : List ℤ) (idsOf : ℤ → List ℕ) (pick : ℕ → ℕ)
    (acc : List ℕ) (l : ℤ) (hmem : l ∈ labels) (hne : idsOf l ≠ []) :
    ∃ i ∈ sweepOnce labels idsOf pick acc, i ∈ idsOf l := by
  induction labels generalizing acc with
  | nil => simp at hmem
  | cons a ls ih =>
    rcases List.mem_cons.mp hmem with rfl | hmem2
    · have hl : ¬(idsOf l).length = 0 := by simpa [List.length_eq_zero] using hne
      have hstep : sweepOnce (l :: ls) idsOf pick acc =
          sweepOnce ls idsOf pick
            (acc ++ [(idsOf l).getD (pick acc.length % (idsOf l).length) 0]) := by
        rw [sweepOnce, List.foldl_cons, if_neg hl]; rfl
      have hlen : 0 < (idsOf l).length := Nat.pos_of_ne_zero hl
      have hidx : pick acc.length % (idsOf l).length < (idsOf l).length :=
        Nat.mod_lt _ hlen
      have he : (idsOf l).getD (pick acc.length % (idsOf l).length) 0 ∈ idsOf l := by
        rw [List.getD_eq_getElem?_getD, List.getElem?_eq_getElem hidx]
        exact List.getElem_mem hidx
      obtain ⟨tl, htl⟩ := sweepOnce_append ls idsOf pick
        (acc ++ [(idsOf l).getD (pick acc.length % (idsOf l).length) 0])
      refine ⟨(idsOf l).getD (pick acc.length % (idsOf l).length) 0, ?_, he⟩
      rw [hstep, htl]
      exact List.mem_append_left tl (List.mem_append_right acc (List.mem_singleton.mpr rfl))
    · by_cases hl : (idsOf a).length = 0
      · have hstep : sweepOnce (a :: ls) idsOf pick acc = sweepOnce ls idsOf pick acc := by
          rw [sweepOnce, List.foldl_cons, if_pos hl]; rfl
        rw [hstep]; exact ih acc hmem2
      · have hstep : sweepOnce (a :: ls) idsOf pick acc =
            sweepOnce ls idsOf pick
              (acc ++ [(idsOf a).getD (pick acc.length % (idsOf a).length) 0]) := by
          rw [sweepOnce, List.foldl_cons, if_neg hl]; rfl
        rw [hstep]; exact ih _ hmem2

lemma sampleLoop_reaches (labels : List ℤ) (idsOf : ℤ → List ℕ) (pick : ℕ → ℕ)
    (hne : ∀ l ∈ labels, idsOf l ≠ []) (hL : 0 < labels.length) (ni : ℕ) :
    ∀ fuel k acc, acc.length = k * labels.length → k ≤ ni → ni - k ≤ fuel →
      (sampleLoop labels idsOf pick (labels.length * ni) fuel acc).length =
        labels.length * ni := by
  intro fuel
  induction fuel with
  | zero =>
    intro k acc hlen hk hfuel
    have hkni : k = ni := by omega
    rw [sampleLoop, hlen, hkni, Nat.mul_comm]
  | succ fuel ih =>
    intro k acc hlen hk hfuel
    rw [sampleLoop]
    by_cases hlt : acc.length < labels.length * ni
    · rw [if_pos hlt]
      have hk2 : k < ni := by
        by_contra hge
        have hkni : k = ni := le_antisymm hk (le_of_not_lt hge)
        rw [hlen, hkni, Nat.mul_comm] at hlt
        exact lt_irrefl _ hlt
      refine ih (k + 1) _ ?_ (by omega) (by omega)
      rw [sweepOnce_length labels idsOf pick acc hne, hlen]
      ring
    · rw [if_neg hlt]
      have h1 : k * labels.length ≤ ni * labels.length := Nat.mul_le_mul_right _ hk
      rw [Nat.mul_comm labels.length ni] at hlt ⊢
      omega

lemma sampleLoop_append (labels : List ℤ) (idsOf : ℤ → List ℕ) (pick : ℕ → ℕ)
    (target : ℕ) :
    ∀ fuel acc, ∃ tl, sampleLoop labels idsOf pick target fuel acc = acc ++ tl := by
  intro fuel
  induction fuel with
  | zero => intro acc; exact ⟨[], by rw [sampleLoop]; simp⟩
  | succ fuel ih =>
    intro acc
    rw [sampleLoop]
    by_cases h : acc.length < target
    · rw [if_pos h]
      obtain ⟨t1, ht1⟩ := sweepOnce_append labels idsOf pick acc
      obtain ⟨t2, ht2⟩ := ih (sweepOnce labels idsOf pick acc)
      exact ⟨t1 ++ t2, by rw [ht2, ht1, List.append_assoc]⟩
    · rw [if_neg h]; exact ⟨[], by simp⟩

/-- C9: for a corpus with at least one label (each label of the index
has a non-empty id set by construction) and target_count = label_count *
num_images with num_images >= 1, the sampler reaches its target within
num_images sweeps (so the while loop terminates), returns exactly
target_count ids, and the returned sequence contains at least one id
from every label. -/
theorem balanced_sampler_count_coverage (labels : List ℤ) (idsOf : ℤ → List ℕ)
    (pick : ℕ → ℕ) (ni fuel : ℕ)
    (hne : ∀ l ∈ labels, idsOf l ≠ [])
    (hL : 0 < labels.length) (hni : 0 < ni) (hfuel : ni ≤ fuel) :
    (sample_data_ids labels idsOf pick (labels.length * ni) fuel).length =
      labels.length * ni ∧
    ∀ l ∈ labels, ∃ i ∈ sample_data_ids labels idsOf pick (labels.length * ni) fuel,
      i ∈ idsOf l := by
  have hloop : (sampleLoop labels idsOf pick (labels.length * ni) fuel []).length =
      labels.length * ni :=
    sampleLoop_reaches labels idsOf pick hne hL ni fuel 0 [] (by simp) (by omega) (by omega)
  constructor
  · rw [sample_data_ids, List.length_take, hloop, min_self]
  · intro l hl
    obtain ⟨f2, rfl⟩ : ∃ f2, fuel = f2 + 1 := ⟨fuel - 1, by omega⟩
    have htarget : (0 : ℕ) < labels.length * ni := Nat.mul_pos hL hni
    have hunfold : sampleLoop labels idsOf pick (labels.length * ni) (f2 + 1) [] =
        sampleLoop labels idsOf pick (labels.length * ni) f2
          (sweepOnce labels idsOf pick []) := by
      rw [sampleLoop, if_pos (by simpa using htarget)]
    obtain ⟨tl, htl⟩ := sampleLoop_append labels idsOf pick (labels.length * ni) f2
      (sweepOnce labels idsOf pick [])
    have hs1len : (sweepOnce labels idsOf pick []).length = labels.length := by
      rw [sweepOnce_length labels idsOf pick [] hne]; simp
    have hs1le : (sweepOnce labels idsOf pick []).length ≤ labels.length * ni := by
      rw [hs1len]
      calc labels.length = labels.length * 1 := (Nat.mul_one _).symm
        _ ≤ labels.length * ni := Nat.mul_le_mul_left _ hni
    obtain ⟨i, hi1, hi2⟩ := sweepOnce_coverage labels idsOf pick [] l hl (hne l hl)
    refine ⟨i, ?_, hi2⟩
    rw [sample_data_ids, hunfold, htl, List.take_append_eq_append_take,
      List.take_of_length_le hs1le]
    exact List.mem_append_left _ hi1

/-- C9 witness: two labels with singleton id sets, two images per label,
two sweeps of fuel: four ids are returned and both labels are covered. -/
theorem balanced_sampler_count_coverage_witness :
    (∀ l ∈ ([0, 1] : List ℤ), (fun l2 : ℤ => if l2 = 0 then [10] else [20]) l ≠ []) ∧
    ((sample_data_ids [0, 1] (fun l2 : ℤ => if l2 = 0 then [10] else [20])
        (fun _ => 0) (([0, 1] : List ℤ).length * 2) 2).length =
      ([0, 1] : List ℤ).length * 2 ∧
    ∀ l ∈ ([0, 1] : List ℤ),
      ∃ i ∈ sample_data_ids [0, 1] (fun l2 : ℤ => if l2 = 0 then [10] else [20])
        (fun _ => 0) (([0, 1] : List ℤ).length * 2) 2,
        i ∈ (fun l2 : ℤ => if l2 = 0 then [10] else [20]) l) :=
  ⟨by decide,
    balanced_sampler_count_coverage [0, 1] (fun l2 : ℤ => if l2 = 0 then [10] else [20])
      (fun _ => 0) 2 2 (by decide) (by decide) (by decide) (by decide)⟩

/-! ### Augmentation engine (SolverWrapper._augment, lines 219-317)

Images are row-major lists of pixel channel lists with integer values;
uint8 data satisfies InByteRange.  External image primitives outside
this repository (cv2.resize, scipy gaussian_filter, and the
transcendental power transform of the gamma step) are abstract function
parameters in AugExt, constrained where needed by contract hypotheses.
Every numpy random draw of _augment is a field of AugRand (the uniform
draws' difficulty-dependent bounds only shape the distributions, never
the data path).  Aliasing matters: augmented_img starts as a reference
to the caller's array, cv2.resize and astype produce fresh arrays,
mirroring produces a reversed view, and blur and erasing write in
place, so AugSt tracks the current array, the caller's buffer content,
and whether the two still alias (and with which orientation). -/

abbrev Pix := List ℤ

abbrev Image := List (List Pix)

def HasShape (img : Image) (h w c : ℕ) : Prop :=
  img.length = h ∧ ∀ row ∈ img, row.length = w ∧ ∀ px ∈ row, px.length = c

def ChannelsEq (img : Image) (c : ℕ) : Prop :=
  ∀ row ∈ img, ∀ px ∈ row, px.length = c

def InByteRange (img : Image) : Prop :=
  ∀ row ∈ img, ∀ px ∈ row, ∀ v ∈ px, 0 ≤ v ∧ v ≤ 255

/-- Python int() truncation toward zero on a rational. -/
def ratTrunc (q : ℚ) : ℤ := if 0 ≤ q then ⌊q⌋ else ⌈q⌉

/-- Saturating clamp to the 8-bit range, as done by the two assignment
lines augmented_img[augmented_img > 255] = 255 and [... < 0] = 0. -/
def clamp255 (v : ℤ) : ℤ := if v > 255 then 255 else if v < 0 then 0 else v

def mapPix (f : ℤ → ℤ) (img : Image) : Image :=
  img.map (fun row => row.map (fun px => px.map f))

/-- Horizontal mirror: img[:, ::-1, :]. -/
def mirrorImg (img : Image) : Image := img.map List.reverse

/-- Channel plane extraction: img[:, :, k]. -/
def planeOf (img : Image) (k : ℕ) : List (List ℤ) :=
  img.map (fun row => row.map (fun px => px.getD k 0))

def planeGet (p : List (List ℤ)) (r c : ℕ) : ℤ := (p.getD r []).getD c 0

/-- The three in-place channel assignments
augmented_img[:, :, k] = gaussian_filter(augmented_img[:, :, k], sigma):
each channel plane is filtered independently and written back. -/
def applyBlur (g : ℚ → List (List ℤ) → List (List ℤ)) (sigma : ℚ) (img : Image) : Image :=
  let c0 := g sigma (planeOf img 0)
  let c1 := g sigma (planeOf img 1)
  let c2 := g sigma (planeOf img 2)
  img.enum.map (fun rp => rp.2.enum.map (fun cp =>
    [planeGet c0 rp.1 cp.1, planeGet c1 rp.1 cp.1, planeGet c2 rp.1 cp.1]))

/-- The gamma transform: the power computation on the 0-1 normalized
image rescaled by 255 and cast to int32 is the external map gp (it
involves transcendental logarithms), after which the code clamps into
[0, 255] and casts to uint8. -/
def gammaStep (gp : ℚ → ℤ → ℤ) (u : ℚ) (img : Image) : Image :=
  mapPix (fun v => clamp255 (gp u v)) img

def imgSum (img : Image) : ℤ := (img.map (fun row => (row.map (fun px => px.sum)).sum)).sum

def imgCount (img : Image) : ℕ := (img.map (fun row => (row.map List.length).sum)).sum

/-- np.average over all channel values. -/
def imgAverage (img : Image) : ℚ := (imgSum img : ℚ) / (imgCount img : ℚ)

/-- The brightness/contrast transform pixel map: float multiply-add,
astype(int32) truncation, then the same clamp to [0, 255]. -/
def brightnessStep (alpha : ℚ) (beta : ℤ) (img : Image) : Image :=
  mapPix (fun v => clamp255 (ratTrunc (alpha * (v : ℚ) + (beta : ℤ)))) img

structure EraseDraw where
  size_w : ℚ
  size_h : ℚ
  border_l : ℚ
  border_t : ℚ
  coin : ℕ
  fill : ℕ → ℕ → Pix

/-- The numpy region assignment
augmented_img[top:bottom, left:right] = fill. -/
def eraseRegion (img : Image) (top bottom left right : ℕ) (f : ℕ → ℕ → Pix) : Image :=
  img.enum.map (fun rp =>
    if top ≤ rp.1 ∧ rp.1 < bottom then
      rp.2.enum.map (fun cp =>
        if left ≤ cp.1 ∧ cp.1 < right then f (rp.1 - top) (cp.1 - left) else cp.2)
    else rp.2)

/-- One iteration of the random-erasing loop: sizes and offsets are
fractions of the image dimensions, edges are clipped to the image, and
the fill is either per-pixel noise (coin = 1) or one solid color, both
supplied by the draw's fill oracle. -/
def eraseOne (d : EraseDraw) (img : Image) : Image :=
  let width := (img.headD []).length
  let height := img.length
  let erase_width := (ratTrunc (d.size_w * width)).toNat
  let erase_height := (ratTrunc (d.size_h * height)).toNat
  let left_edge := (ratTrunc (d.border_l * width)).toNat
  let top_edge := (ratTrunc (d.border_t * height)).toNat
  let right_edge := min (left_edge + erase_width) width
  let bottom_edge := min (top_edge + erase_height) height
  eraseRegion img top_edge bottom_edge left_edge right_edge
    (fun rr cc => if d.coin = 1 then d.fill rr cc else d.fill 0 0)

structure AugParam where
  dither : Bool
  aspect_ratio_limits : ℚ × ℚ
  max_border_size : ℚ
  blur : Bool
  max_blur_prob : ℚ
  sigma_limits : ℚ × ℚ
  mirror : Bool
  gamma : Bool
  max_gamma_prob : ℚ
  delta : ℚ
  brightness : Bool
  max_brightness_prob : ℚ
  min_pos : ℚ
  pos_alpha : ℚ × ℚ
  pos_beta : ℚ × ℚ
  neg_alpha : ℚ × ℚ
  neg_beta : ℚ × ℚ
  erase : Bool
  max_erase_prob : ℚ
  erase_num : ℕ × ℕ
  erase_size : ℚ × ℚ
  erase_border : ℚ × ℚ

structure AugRand where
  crop_aspect : ℚ
  border_size : ℚ
  left_edge : ℕ
  top_edge : ℕ
  blur_trigger : ℚ
  sigma : ℚ
  mirror_coin : ℕ
  gamma_trigger : ℚ
  gamma_u : ℚ
  brightness_trigger : ℚ
  pos_alpha_draw : ℚ
  pos_beta_draw : ℤ
  neg_alpha_draw : ℚ
  neg_beta_draw : ℤ
  erase_trigger : ℚ
  erase_num_draw : ℕ
  eraseDraws : ℕ → EraseDraw

/-- External image primitives (out of scope of this repository):
cv2.resize taking (image, width, height), the scipy Gaussian channel
filter, and the int32-valued gamma power map. -/
structure AugExt where
  resize : Image → ℕ → ℕ → Image
  gaussian : ℚ → List (List ℤ) → List (List ℤ)
  gammaPow : ℚ → ℤ → ℤ

/-- The dither branch: pick a crop aspect and border (draw oracles whose
bounds depend on difficulty), resize the source so the bordered crop
region fits while preserving its aspect ratio, cut a random crop clipped
to the resized image, and resize the crop to the target size. -/
def ditherStep (ext : AugExt) (rnd : AugRand) (trgH trgW : ℕ) (img : Image) : Image :=
  let crop_height : ℤ := (trgH : ℤ)
  let crop_width : ℤ := ratTrunc ((trgH : ℚ) / rnd.crop_aspect)
  let region_height : ℤ := ratTrunc ((crop_height : ℚ) + 2 * rnd.border_size)
  let region_width : ℤ := ratTrunc ((crop_width : ℚ) + 2 * rnd.border_size)
  let src_aspect : ℚ := ((img.length : ℕ) : ℚ) / (((img.headD []).length : ℕ) : ℚ)
  let trg_aspect : ℚ := ((region_height : ℤ) : ℚ) / ((region_width : ℤ) : ℚ)
  let wh : ℤ × ℤ :=
    if src_aspect > trg_aspect then
      (region_width, ratTrunc (((region_width : ℤ) : ℚ) * src_aspect))
    else
      (ratTrunc (((region_height : ℤ) : ℚ) / src_aspect), region_height)
  let resized := ext.resize img wh.1.toNat wh.2.toNat
  let cropH := min crop_height ((resized.length : ℕ) : ℤ)
  let cropW := min crop_width ((((resized.headD []).length : ℕ)) : ℤ)
  let cropped := ((resized.drop rnd.top_edge).take cropH.toNat).map
    (fun row => (row.drop rnd.left_edge).take cropW.toNat)
  ext.resize cropped trgW trgH

/-- Aliasing-aware state of the _augment body: cur is augmented_img, inp
is the caller's input buffer content, and alias notes whether cur is
still a (possibly mirrored) view of that buffer. -/
structure AugSt where
  cur : Image
  inp : Image
  aliased : Option Bool

def viewBack (m : Bool) (img : Image) : Image := if m then mirrorImg img else img

/-- The dither stage of _augment: when enabled, augmented_img is rebound
to a fresh resize output, breaking the alias with the caller's buffer. -/
def stageDither (ext : AugExt) (p : AugParam) (rnd : AugRand) (trgH trgW : ℕ)
    (st : AugSt) : AugSt :=
  if p.dither then ⟨ditherStep ext rnd trgH trgW st.cur, st.inp, none⟩ else st

/-- The blur stage: the three channel assignments write in place, so
when augmented_img still aliases the caller's buffer the buffer receives
the blurred data through the (possibly mirrored) view. -/
def stageBlur (ext : AugExt) (p : AugParam) (rnd : AugRand) (difficulty : ℚ)
    (st : AugSt) : AugSt :=
  if p.blur ∧ rnd.blur_trigger < min p.max_blur_prob difficulty then
    ⟨applyBlur ext.gaussian rnd.sigma st.cur,
      match st.aliased with
      | some m => viewBack m (applyBlur ext.gaussian rnd.sigma st.cur)
      | none => st.inp,
      st.aliased⟩
  else st

/-- The mirror stage: rebinding to the reversed view keeps (and flips)
the alias, copying nothing. -/
def stageMirror (p : AugParam) (rnd : AugRand) (st : AugSt) : AugSt :=
  if p.mirror ∧ rnd.mirror_coin = 1 then
    ⟨mirrorImg st.cur, st.inp, st.aliased.map (fun m => !m)⟩
  else st

/-- The gamma stage: the astype conversions allocate fresh arrays, so a
triggered gamma breaks the alias and never touches the input buffer. -/
def stageGamma (ext : AugExt) (p : AugParam) (rnd : AugRand) (difficulty : ℚ)
    (st : AugSt) : AugSt :=
  if p.gamma ∧ rnd.gamma_trigger < min p.max_gamma_prob difficulty then
    ⟨gammaStep ext.gammaPow rnd.gamma_u st.cur, st.inp, none⟩
  else st

/-- The brightness stage: like gamma it allocates fresh arrays; the mean
intensity selects the positive or negative draw pair. -/
def stageBrightness (p : AugParam) (rnd : AugRand) (difficulty : ℚ)
    (st : AugSt) : AugSt :=
  if p.brightness ∧ rnd.brightness_trigger < min p.max_brightness_prob difficulty then
    ⟨brightnessStep
        (if imgAverage st.cur > p.min_pos then rnd.pos_alpha_draw else rnd.neg_alpha_draw)
        (if imgAverage st.cur > p.min_pos then rnd.pos_beta_draw else rnd.neg_beta_draw)
        st.cur,
      st.inp, none⟩
  else st

/-- The erase stage: region writes happen in place, so they reach the
caller's buffer whenever the alias is still live. -/
def stageErase (p : AugParam) (rnd : AugRand) (difficulty : ℚ) (st : AugSt) : AugSt :=
  if p.erase ∧ rnd.erase_trigger < min p.max_erase_prob difficulty then
    ⟨(List.range rnd.erase_num_draw).foldl (fun im i => eraseOne (rnd.eraseDraws i) im)
        st.cur,
      match st.aliased with
      | some m => viewBack m ((List.range rnd.erase_num_draw).foldl
          (fun im i => eraseOne (rnd.eraseDraws i) im) st.cur)
      | none => st.inp,
      st.aliased⟩
  else st

/-- Embeds SolverWrapper._augment as the sequential composition of its
six conditionally applied transforms, returning both the value of the
returned array and the content of the caller's input buffer after the
call (they differ when an in-place transform wrote through the alias).
The final astype(np.uint8) wraps every channel value into [0, 255] and
always produces a fresh array. -/
def augmentRun (ext : AugExt) (p : AugParam) (rnd : AugRand) (difficulty : ℚ)
    (trgH trgW : ℕ) (img : Image) : Image × Image :=
  let st := stageErase p rnd difficulty
    (stageBrightness p rnd difficulty
      (stageGamma ext p rnd difficulty
        (stageMirror p rnd
          (stageBlur ext p rnd difficulty
            (stageDither ext p rnd trgH trgW ⟨img, img, some false⟩)))))
  (mapPix (fun v => v % 256) st.cur, st.inp)

instance (img : Image) (h w c : ℕ) : Decidable (HasShape img h w c) := by
  unfold HasShape; infer_instance

instance (img : Image) (c : ℕ) : Decidable (ChannelsEq img c) := by
  unfold ChannelsEq; infer_instance

instance (img : Image) : Decidable (InByteRange img) := by
  unfold InByteRange; infer_instance

lemma hasShape_channels {img : Image} {h w c : ℕ} (hs : HasShape img h w c) :
    ChannelsEq img c := fun row hr px hp => (hs.2 row hr).2 px hp

lemma mem_enum_snd_mem {α : Type} {l : List α} {x : ℕ × α} (hx : x ∈ l.enum) : x.2 ∈ l :=
  List.getElem?_mem (List.mem_enum_iff_getElem?.mp hx)

lemma applyBlur_shape (g : ℚ → List (List ℤ) → List (List ℤ)) (sigma : ℚ)
    {img : Image} {h w c : ℕ} (hs : HasShape img h w c) :
    HasShape (applyBlur g sigma img) h w 3 := by
  unfold applyBlur HasShape
  refine ⟨by rw [List.length_map, List.enum_length]; exact hs.1, ?_⟩
  intro row hr
  obtain ⟨rp, hrp, rfl⟩ := List.mem_map.mp hr
  refine ⟨?_, ?_⟩
  · rw [List.length_map, List.enum_length]
    exact (hs.2 rp.2 (mem_enum_snd_mem hrp)).1
  · intro px hp
    obtain ⟨cp, hcp, rfl⟩ := List.mem_map.mp hp
    rfl

lemma mirrorImg_shape {img : Image} {h w c : ℕ} (hs : HasShape img h w c) :
    HasShape (mirrorImg img) h w c := by
  unfold mirrorImg HasShape
  refine ⟨by rw [List.length_map]; exact hs.1, ?_⟩
  intro row hr
  obtain ⟨r0, hr0, rfl⟩ := List.mem_map.mp hr
  refine ⟨by rw [List.length_reverse]; exact (hs.2 r0 hr0).1, ?_⟩
  intro px hp
  exact (hs.2 r0 hr0).2 px (List.mem_reverse.mp hp)

lemma mapPix_shape (f : ℤ → ℤ) {img : Image} {h w c : ℕ} (hs : HasShape img h w c) :
    HasShape (mapPix f img) h w c := by
  unfold mapPix HasShape
  refine ⟨by rw [List.length_map]; exact hs.1, ?_⟩
  intro row hr
  obtain ⟨r0, hr0, rfl⟩ := List.mem_map.mp hr
  refine ⟨by rw [List.length_map]; exact (hs.2 r0 hr0).1, ?_⟩
  intro px hp
  obtain ⟨p0, hp0, rfl⟩ := List.mem_map.mp hp
  rw [List.length_map]
  exact (hs.2 r0 hr0).2 p0 hp0

lemma eraseRegion_shape {img : Image} (t b l r : ℕ) (f : ℕ → ℕ → Pix)
    {h w c : ℕ} (hs : HasShape img h w c) (hf : ∀ rr cc, (f rr cc).length = c) :
    HasShape (eraseRegion img t b l r f) h w c := by
  unfold eraseRegion HasShape
  refine ⟨by rw [List.length_map, List.enum_length]; exact hs.1, ?_⟩
  intro row hr
  obtain ⟨rp, hrp, rfl⟩ := List.mem_map.mp hr
  have hrow := hs.2 rp.2 (mem_enum_snd_mem hrp)
  by_cases hband : t ≤ rp.1 ∧ rp.1 < b
  · rw [if_pos hband]
    refine ⟨by rw [List.length_map, List.enum_length]; exact hrow.1, ?_⟩
    intro px hp
    obtain ⟨cp, hcp, rfl⟩ := List.mem_map.mp hp
    by_cases hcol : l ≤ cp.1 ∧ cp.1 < r
    · rw [if_pos hcol]; exact hf _ _
    · rw [if_neg hcol]; exact hrow.2 cp.2 (mem_enum_snd_mem hcp)
  · rw [if_neg hband]
    exact hrow

lemma eraseOne_shape (d : EraseDraw) {img : Image} {h w c : ℕ}
    (hs : HasShape img h w c) (hf : ∀ rr cc, (d.fill rr cc).length = c) :
    HasShape (eraseOne d img) h w c := by
  unfold eraseOne
  refine eraseRegion_shape _ _ _ _ _ hs ?_
  intro rr cc
  by_cases hcoin : d.coin = 1
  · rw [if_pos hcoin]; exact hf rr cc
  · rw [if_neg hcoin]; exact hf 0 0

lemma eraseFold_shape (draws : ℕ → EraseDraw) (l : List ℕ) {img : Image} {h w c : ℕ}
    (hs : HasShape img h w c) (hf : ∀ i rr cc, ((draws i).fill rr cc).length = c) :
    HasShape (l.foldl (fun im i => eraseOne (draws i) im) img) h w c := by
  induction l generalizing img with
  | nil => exact hs
  | cons i rest ih =>
    rw [List.foldl_cons]
    exact ih (eraseOne_shape (draws i) hs (hf i))

lemma channels_take_drop {img : Image} {c : ℕ} (hch : ChannelsEq img c)
    (te le cH cW : ℕ) :
    ChannelsEq (((img.drop te).take cH).map
      (fun row => (row.drop le).take cW)) c := by
  intro row hr px hp
  obtain ⟨r0, hr0, rfl⟩ := List.mem_map.mp hr
  have hr1 : r0 ∈ img := List.mem_of_mem_drop (List.mem_of_mem_take hr0)
  have hp1 : px ∈ r0 := List.mem_of_mem_drop (List.mem_of_mem_take hp)
  exact hch r0 hr1 px hp1

lemma ditherStep_shape (ext : AugExt) (rnd : AugRand) (trgH trgW : ℕ) {img : Image}
    (hch : ChannelsEq img 3)
    (hresize : ∀ im w h, ChannelsEq im 3 → HasShape (ext.resize im w h) h w 3) :
    HasShape (ditherStep ext rnd trgH trgW img) trgH trgW 3 := by
  unfold ditherStep
  apply hresize
  exact channels_take_drop (hasShape_channels (hresize img _ _ hch)) _ _ _ _

lemma mapPix_emod_byte (img : Image) : InByteRange (mapPix (fun v => v % 256) img) := by
  intro row hr px hp v hv
  obtain ⟨r0, hr0, rfl⟩ := List.mem_map.mp hr
  obtain ⟨p0, hp0, rfl⟩ := List.mem_map.mp hp
  obtain ⟨v0, hv0, rfl⟩ := List.mem_map.mp hv
  constructor
  · exact Int.emod_nonneg v0 (by decide)
  · have := Int.emod_lt_of_pos v0 (show (0 : ℤ) < 256 by decide)
    omega

lemma stageBlur_cur_shape (ext : AugExt) (p : AugParam) (rnd : AugRand) (d : ℚ)
    (st : AugSt) {h w : ℕ} (hs : HasShape st.cur h w 3) :
    HasShape (stageBlur ext p rnd d st).cur h w 3 := by
  unfold stageBlur
  split
  · exact applyBlur_shape ext.gaussian rnd.sigma hs
  · exact hs

lemma stageMirror_cur_shape (p : AugParam) (rnd : AugRand) (st : AugSt) {h w : ℕ}
    (hs : HasShape st.cur h w 3) :
    HasShape (stageMirror p rnd st).cur h w 3 := by
  unfold stageMirror
  split
  · exact mirrorImg_shape hs
  · exact hs

lemma stageGamma_cur_shape (ext : AugExt) (p : AugParam) (rnd : AugRand) (d : ℚ)
    (st : AugSt) {h w : ℕ} (hs : HasShape st.cur h w 3) :
    HasShape (stageGamma ext p rnd d st).cur h w 3 := by
  unfold stageGamma
  split
  · exact mapPix_shape _ hs
  · exact hs

lemma stageBrightness_cur_shape (p : AugParam) (rnd : AugRand) (d : ℚ)
    (st : AugSt) {h w : ℕ} (hs : HasShape st.cur h w 3) :
    HasShape (stageBrightness p rnd d st).cur h w 3 := by
  unfold stageBrightness
  split
  · exact mapPix_shape _ hs
  · exact hs

lemma stageErase_cur_shape (p : AugParam) (rnd : AugRand) (d : ℚ)
    (st : AugSt) {h w : ℕ} (hs : HasShape st.cur h w 3)
    (hf : ∀ i rr cc, ((rnd.eraseDraws i).fill rr cc).length = 3) :
    HasShape (stageErase p rnd d st).cur h w 3 := by
  unfold stageErase
  split
  · exact eraseFold_shape rnd.eraseDraws _ hs hf
  · exact hs

lemma stageDither_cur_shape (ext : AugExt) (p : AugParam) (rnd : AugRand)
    (trgH trgW : ℕ) (st : AugSt) (hd : p.dither = true)
    (hch : ChannelsEq st.cur 3)
    (hresize : ∀ im w h, ChannelsEq im 3 → HasShape (ext.resize im w h) h w 3) :
    HasShape (stageDither ext p rnd trgH trgW st).cur trgH trgW 3 := by
  unfold stageDither
  rw [hd, if_pos rfl]
  exact ditherStep_shape ext rnd trgH trgW hch hresize

/-- C6 amended: for every valid 3-channel byte image, every difficulty,
and every enabled-transform subset THAT INCLUDES the dither crop (whose
final resize pins the output size), under the cv2.resize contract
(resizing a 3-channel image to (w, h) yields an h-by-w 3-channel image)
and with 3-channel erase fills, the returned image has dimensions
exactly (target_height, target_width, 3) and every channel value lies in
[0, 255] (the final astype(np.uint8) wraps values into byte range).
Without dither no resize ever runs and the output keeps the input
dimensions (see the counterexample). -/
theorem augment_output_shape_range (ext : AugExt) (p : AugParam) (rnd : AugRand)
    (difficulty : ℚ) (trgH trgW : ℕ) (img : Image)
    (hd : p.dither = true)
    (hch : ChannelsEq img 3)
    (hresize : ∀ im w h, ChannelsEq im 3 → HasShape (ext.resize im w h) h w 3)
    (hfill : ∀ i rr cc, ((rnd.eraseDraws i).fill rr cc).length = 3) :
    HasShape (augmentRun ext p rnd difficulty trgH trgW img).1 trgH trgW 3 ∧
    InByteRange (augmentRun ext p rnd difficulty trgH trgW img).1 := by
  have h1 : HasShape (stageDither ext p rnd trgH trgW ⟨img, img, some false⟩).cur
      trgH trgW 3 :=
    stageDither_cur_shape ext p rnd trgH trgW ⟨img, img, some false⟩ hd hch hresize
  have h2 := stageBlur_cur_shape ext p rnd difficulty _ h1
  have h3 := stageMirror_cur_shape p rnd _ h2
  have h4 := stageGamma_cur_shape ext p rnd difficulty _ h3
  have h5 := stageBrightness_cur_shape p rnd difficulty _ h4
  have h6 := stageErase_cur_shape p rnd difficulty _ h5 hfill
  exact ⟨mapPix_shape _ h6, mapPix_emod_byte _⟩

/-- Identity-like external primitives used for concrete evaluations. -/
def extId : AugExt := ⟨fun im _ _ => im, fun _ pl => pl, fun _ v => v⟩

/-- All transforms disabled. -/
def pOff : AugParam :=
  ⟨false, (0, 0), 0, false, 0, (0, 0), false, false, 0, 0, false, 0, 0,
    (0, 0), (0, 0), (0, 0), (0, 0), false, 0, (0, 0), (0, 0), (0, 0)⟩

def draw0 : EraseDraw := ⟨0, 0, 0, 0, 0, fun _ _ => [0, 0, 0]⟩

def rnd0 : AugRand := ⟨1, 0, 0, 0, 0, 0, 0, 0, 0, 0, 0, 0, 0, 0, 0, 0, fun _ => draw0⟩

/-- A valid 2-by-2 3-channel byte image. -/
def img22 : Image := List.replicate 2 (List.replicate 2 [0, 0, 0])

/-- C6 counterexample: with every transform disabled (a legal subset of
enabled transforms) a valid 2-by-2 3-channel byte image is returned at
its own size, not at the requested 3-by-4 target: without the dither
stage _augment never resizes, so the claimed output dimensions fail. -/
theorem augment_shape_counterexample :
    HasShape img22 2 2 3 ∧ InByteRange img22 ∧
    ¬ HasShape (augmentRun extId pOff rnd0 1 3 4 img22).1 3 4 3 := by
  refine ⟨by decide, by decide, by decide⟩

/-- Only dither enabled. -/
def pDither : AugParam :=
  ⟨true, (0, 0), 0, false, 0, (0, 0), false, false, 0, 0, false, 0, 0,
    (0, 0), (0, 0), (0, 0), (0, 0), false, 0, (0, 0), (0, 0), (0, 0)⟩

/-- A constant-image stand-in satisfying the cv2.resize shape contract. -/
def resizeConst : Image → ℕ → ℕ → Image :=
  fun _ w h => List.replicate h (List.replicate w [0, 0, 0])

def extConst : AugExt := ⟨resizeConst, fun _ pl => pl, fun _ v => v⟩

lemma resizeConst_shape : ∀ im w h, ChannelsEq im 3 →
    HasShape (resizeConst im w h) h w 3 := by
  intro im w h _
  refine ⟨by simp [resizeConst], ?_⟩
  intro row hr
  rw [List.eq_of_mem_replicate hr]
  refine ⟨by simp, ?_⟩
  intro px hp
  rw [List.eq_of_mem_replicate hp]
  rfl

/-- C6 amended witness: dither enabled with the constant resize model on
the concrete 2-by-2 image, target 3-by-4. -/
theorem augment_output_shape_range_witness :
    pDither.dither = true ∧
    ChannelsEq img22 3 ∧
    (HasShape (augmentRun extConst pDither rnd0 1 3 4 img22).1 3 4 3 ∧
     InByteRange (augmentRun extConst pDither rnd0 1 3 4 img22).1) :=
  ⟨rfl, by decide,
    augment_output_shape_range extConst pDither rnd0 1 3 4 img22 rfl (by decide)
      resizeConst_shape (fun _ _ _ => rfl)⟩

lemma stageDither_break (ext : AugExt) (p : AugParam) (rnd : AugRand)
    (trgH trgW : ℕ) (st : AugSt) (hd : p.dither = true) :
    (stageDither ext p rnd trgH trgW st).inp = st.inp ∧
    (stageDither ext p rnd trgH trgW st).aliased = none := by
  unfold stageDither
  rw [hd, if_pos rfl]
  exact ⟨rfl, rfl⟩

lemma stageBlur_inp_of_none (ext : AugExt) (p : AugParam) (rnd : AugRand) (d : ℚ)
    (st : AugSt) (h : st.aliased = none) :
    (stageBlur ext p rnd d st).inp = st.inp ∧
    (stageBlur ext p rnd d st).aliased = none := by
  unfold stageBlur
  split
  · rw [h]; exact ⟨rfl, rfl⟩
  · exact ⟨rfl, h⟩

lemma stageMirror_inp_of_none (p : AugParam) (rnd : AugRand)
    (st : AugSt) (h : st.aliased = none) :
    (stageMirror p rnd st).inp = st.inp ∧
    (stageMirror p rnd st).aliased = none := by
  unfold stageMirror
  split
  · rw [h]; exact ⟨rfl, rfl⟩
  · exact ⟨rfl, h⟩

lemma stageGamma_inp_of_none (ext : AugExt) (p : AugParam) (rnd : AugRand) (d : ℚ)
    (st : AugSt) (h : st.aliased = none) :
    (stageGamma ext p rnd d st).inp = st.inp ∧
    (stageGamma ext p rnd d st).aliased = none := by
  unfold stageGamma
  split
  · exact ⟨rfl, rfl⟩
  · exact ⟨rfl, h⟩

lemma stageBrightness_inp_of_none (p : AugParam) (rnd : AugRand) (d : ℚ)
    (st : AugSt) (h : st.aliased = none) :
    (stageBrightness p rnd d st).inp = st.inp ∧
    (stageBrightness p rnd d st).aliased = none := by
  unfold stageBrightness
  split
  · exact ⟨rfl, rfl⟩
  · exact ⟨rfl, h⟩

lemma stageErase_inp_of_none (p : AugParam) (rnd : AugRand) (d : ℚ)
    (st : AugSt) (h : st.aliased = none) :
    (stageErase p rnd d st).inp = st.inp ∧
    (stageErase p rnd d st).aliased = none := by
  unfold stageErase
  split
  · rw [h]; exact ⟨rfl, rfl⟩
  · exact ⟨rfl, h⟩

/-- C10 amended: when the dither crop is enabled, _augment never mutates
the caller's input image: the dither resize rebinds augmented_img to a
fresh array before any in-place transform runs, so the caller's buffer
is unchanged for every choice of the other transforms and draws.  When
dither is disabled, the in-place transforms (the per-channel blur
assignments and the erase region writes) go straight into the caller's
array (see the counterexample). -/
theorem augment_input_unchanged_with_dither (ext : AugExt) (p : AugParam)
    (rnd : AugRand) (difficulty : ℚ) (trgH trgW : ℕ) (img : Image)
    (hd : p.dither = true) :
    (augmentRun ext p rnd difficulty trgH trgW img).2 = img := by
  have h1 := stageDither_break ext p rnd trgH trgW ⟨img, img, some false⟩ hd
  have h2 := stageBlur_inp_of_none ext p rnd difficulty _ h1.2
  have h3 := stageMirror_inp_of_none p rnd _ h2.2
  have h4 := stageGamma_inp_of_none ext p rnd difficulty _ h3.2
  have h5 := stageBrightness_inp_of_none p rnd difficulty _ h4.2
  have h6 := stageErase_inp_of_none p rnd difficulty _ h5.2
  show (stageErase p rnd difficulty
    (stageBrightness p rnd difficulty
      (stageGamma ext p rnd difficulty
        (stageMirror p rnd
          (stageBlur ext p rnd difficulty
            (stageDither ext p rnd trgH trgW ⟨img, img, some false⟩)))))).inp = img
  rw [h6.1, h5.1, h4.1, h3.1, h2.1, h1.1]

/-- C10 amended witness: dither enabled on the concrete image leaves the
caller's buffer untouched. -/
theorem augment_input_unchanged_with_dither_witness :
    pDither.dither = true ∧
    (augmentRun extConst pDither rnd0 1 3 4 img22).2 = img22 :=
  ⟨rfl, augment_input_unchanged_with_dither extConst pDither rnd0 1 3 4 img22 rfl⟩

/-- Blur enabled (and always triggered at difficulty 1), dither off. -/
def pBlur : AugParam :=
  ⟨false, (0, 0), 0, true, 1, (0, 1), false, false, 0, 0, false, 0, 0,
    (0, 0), (0, 0), (0, 0), (0, 0), false, 0, (0, 0), (0, 0), (0, 0)⟩

/-- A gaussian-filter behaviour returning a concrete smoothed plane,
standing in for scipy's filter (any output differing from the input
exhibits the mutation). -/
def extBlur9 : AugExt := ⟨fun im _ _ => im, fun _ _ => [[9, 9], [9, 9]], fun _ v => v⟩

/-- C10 counterexample: with dither disabled and blur enabled, the three
per-channel gaussian assignments write through the still-live alias into
the caller's array: after the call the input buffer holds the blurred
data, not the original zeros, so _augment is not a pure function of its
arguments. -/
theorem augment_mutates_input_counterexample :
    HasShape img22 2 2 3 ∧ InByteRange img22 ∧
    (augmentRun extBlur9 pBlur rnd0 1 2 2 img22).2 =
      List.replicate 2 (List.replicate 2 [9, 9, 9]) ∧
    (augmentRun extBlur9 pBlur rnd0 1 2 2 img22).2 ≠ img22 := by
  refine ⟨by decide, by decide, by decide, by decide⟩

end TrainReid
